import Mathlib

/-!
Verification of the register encoding and placement engine of
`cmd/modbusgenerator/main.go` (postmannen/modbusgenerator).

The Go source is shallowly embedded below:

* 16-bit / 32-bit machine words become `Nat` with explicit `% 2 ^ w`
  (Go's unsigned wrap-around) and the bitwise operators `&&&`, `|||`,
  `<<<`, `>>>` mirroring Go's `&`, `|`, `<<`, `>>`.
* Go `int` values (addresses, offsets, the `prevAddr` tracker) become `Int`.
* The float codecs in the source start from `math.Float32bits(float32(f.Number))`;
  Lean has no executable IEEE-754 semantics, so each float codec is embedded as
  a function of that 32-bit bit pattern (`bits : Nat`, `bits < 2 ^ 32`), which is
  exactly the quantity all four codecs consume.  The `uint16(w.Number)` conversion
  of the single-word codecs is likewise embedded as the numeric argument taken
  modulo `2 ^ 16`.
* The `mbserver.Server` register buffers live in the root package of the
  repository, which is not part of the sources here; they are modelled from the
  spec (flat, zero-initialized, spanning the protocol address space) together
  with the Go slice semantics of the `append(buf[:addr], data...)` writes that
  `setRegister` performs on them.
-/

namespace ModbusGen

/-! ### Word-level helpers from the source -/

/-- Embedding of `uint16ToLittleEndian` (main.go): Go writes `u` little-endian
into a 2-byte buffer (`b[0] = byte(u)`, `b[1] = byte(u >> 8)`) and reads the
buffer back big-endian (`b[0] << 8 ||| b[1]`), i.e. it swaps the two bytes of
the 16-bit word. -/
def uint16ToLittleEndian (u : Nat) : Nat :=
  ((u &&& 0xff) <<< 8) ||| ((u >>> 8) &&& 0xff)

/-- Embedding of `uint16ToByteSlice` (main.go):
`u1 = byte(u >> 8)`, `u2 = byte(u & 0xFF)`, returned as `[u1, u2]`. -/
def uint16ToByteSlice (u : Nat) : List Nat :=
  [(u >>> 8) &&& 0xff, u &&& 0xff]

/-! ### Float32 word codecs from the source

Each `Encode` first computes `v1 = uint16((Float32bits(n) >> 16) & 0xffff)`
and `v2 = uint16(Float32bits(n) & 0xffff)`; `bits` stands for
`math.Float32bits(float32(f.Number))` (see the header note). -/

/-- Embedding of `float32LittleWordBigEndian.Encode` (main.go): `[v2, v1]`. -/
def float32LittleWordBigEndianEncode (bits : Nat) : List Nat :=
  let v1 := (bits >>> 16) &&& 0xffff
  let v2 := bits &&& 0xffff
  [v2, v1]

/-- Embedding of `float32BigWordBigEndian.Encode` (main.go): `[v1, v2]`. -/
def float32BigWordBigEndianEncode (bits : Nat) : List Nat :=
  let v1 := (bits >>> 16) &&& 0xffff
  let v2 := bits &&& 0xffff
  [v1, v2]

/-- Embedding of `float32LittleWordLittleEndian.Encode` (main.go): both words
are byte-swapped with `uint16ToLittleEndian`, then returned as `[v2, v1]`. -/
def float32LittleWordLittleEndianEncode (bits : Nat) : List Nat :=
  let v1 := (bits >>> 16) &&& 0xffff
  let v2 := bits &&& 0xffff
  [uint16ToLittleEndian v2, uint16ToLittleEndian v1]

/-- Embedding of `float32BigWordLittleEndian.Encode` (main.go): both words
are byte-swapped with `uint16ToLittleEndian`, then returned as `[v1, v2]`. -/
def float32BigWordLittleEndianEncode (bits : Nat) : List Nat :=
  let v1 := (bits >>> 16) &&& 0xffff
  let v2 := bits &&& 0xffff
  [uint16ToLittleEndian v1, uint16ToLittleEndian v2]

/-- Embedding of `wordInt16BigEndian.Encode` (main.go):
`vTmp := uint16(w.Number) << 8; v := vTmp | uint16(1); return []uint16{v}`.
The argument is `w.Number` already truncated to an integer; the `uint16`
conversion and the 16-bit wrap of the shift are the explicit `% 65536`. -/
def wordInt16BigEndianEncode (u : Nat) : List Nat :=
  let vTmp := ((u % 65536) <<< 8) % 65536
  let v := vTmp ||| 1
  [v]

/-- Embedding of `wordInt16LittleEndian.Encode` (main.go):
`v := uint16(w.Number); v = uint16ToLittleEndian(v); return []uint16{v}`. -/
def wordInt16LittleEndianEncode (u : Nat) : List Nat :=
  [uint16ToLittleEndian (u % 65536)]

/-! ### Spec-side formulas (for comparison with the source)

These definitions follow the spec's words, not the source; the claim theorems
compare the source embeddings against them. -/

/-- The spec's byte-swap formula: `swap(w) = (w << 8 | w >> 8) & 0xFFFF`. -/
def swapSpec (w : Nat) : Nat :=
  ((w <<< 8) ||| (w >>> 8)) &&& 0xffff

/-- Inverse reassembly for `float32LittleWordBigEndian` per the spec's
round-trip law: the low word was sent first, so rejoin `words[1]` as the high
half and `words[0]` as the low half. -/
def reassembleLittleWordBigEndian (ws : List Nat) : Nat :=
  (ws.getD 1 0) * 65536 + ws.getD 0 0

/-- Inverse reassembly for `float32BigWordBigEndian` per the spec's round-trip
law: high word first. -/
def reassembleBigWordBigEndian (ws : List Nat) : Nat :=
  (ws.getD 0 0) * 65536 + ws.getD 1 0

/-- Inverse reassembly for `float32LittleWordLittleEndian` per the spec's
round-trip law: undo the intra-word byte swap of each word, then rejoin with
the low word first. -/
def reassembleLittleWordLittleEndian (ws : List Nat) : Nat :=
  (uint16ToLittleEndian (ws.getD 1 0)) * 65536 + uint16ToLittleEndian (ws.getD 0 0)

/-- Inverse reassembly for `float32BigWordLittleEndian` per the spec's
round-trip law: undo the intra-word byte swap of each word, then rejoin with
the high word first. -/
def reassembleBigWordLittleEndian (ws : List Nat) : Nat :=
  (uint16ToLittleEndian (ws.getD 0 0)) * 65536 + uint16ToLittleEndian (ws.getD 1 0)

/-! ### Register image builder (`setRegister`, main.go)

The builder writes into the four register buffers of the external
`mbserver.Server`. -/

/-- Modelled from the spec: a register buffer of the external `mbserver.Server`
(root package of the repository, not among the sources here).  Per the spec it
is a flat, zero-initialized, byte- or word-addressable buffer spanning the full
protocol address space.  It is embedded as a Go slice: `arr` is the backing
array content (unbounded, so capacity growth on `append` is transparent) and
`len` the current slice length. -/
structure RegBuf where
  arr : Nat → Nat
  len : Nat

/-- Go's `append(buf[:addr], data...)` on a register buffer: the elements at
positions `addr ..= addr + data.length - 1` become `data`, everything else in
the backing array keeps its value, and the resulting slice length is
`addr + data.length`. -/
def appendAt (buf : RegBuf) (addr : Nat) (data : List Nat) : RegBuf where
  arr := fun i =>
    if addr ≤ i ∧ i - addr < data.length then data.getD (i - addr) 0 else buf.arr i
  len := addr + data.length

/-- Go slice indexing `buf[p]`: `some` element when in bounds, `none` where Go
would panic with an index-out-of-range. -/
def RegBuf.read (buf : RegBuf) (p : Nat) : Option Nat :=
  if p < buf.len then some (buf.arr p) else none

/-- Modelled from the spec: the four register buffers of `mbserver.NewServer()`,
each zero-initialized over the protocol address space `0..65535`. -/
def zeroBuf : RegBuf where
  arr := fun _ => 0
  len := 65536

/-- The `mbserver.Server` fields written by `setRegister` (modelled from the
spec at the interface boundary, see `zeroBuf`). -/
structure Server where
  Coils : RegBuf
  DiscreteInputs : RegBuf
  InputRegisters : RegBuf
  HoldingRegisters : RegBuf

/-- Modelled from the spec: `mbserver.NewServer()` with all four buffers
zero-initialized. -/
def newServer : Server where
  Coils := zeroBuf
  DiscreteInputs := zeroBuf
  InputRegisters := zeroBuf
  HoldingRegisters := zeroBuf

/-- The `encoder` interface values consumed by `setRegister`: the builder only
ever calls `Encode()` (here the field `enc`) and `Address()` (here `regAddr`,
Go `int`). -/
structure Entry where
  enc : List Nat
  regAddr : Int

/-- The errors `setRegister` can return: `wrongIncrement` is
`"wrong increment of address in <registerType> register for address after <addr>"`,
`wrongFile` is the `default` branch's `"wrong file given: ..."` error. -/
inductive SetRegisterError where
  | wrongIncrement (registerType : String) (addr : Int)
  | wrongFile
deriving DecidableEq

/-- `const coilSize = 1` (main.go). -/
def coilSize : Int := 1
/-- `const discreteSize = 1` (main.go). -/
def discreteSize : Int := 1
/-- `const inputSize = 2` (main.go). -/
def inputSize : Int := 2
/-- `const holdingSize = 2` (main.go). -/
def holdingSize : Int := 2

/-- One loop of `setRegister` (main.go).  The four `case` bodies are identical
up to the register name, the size constant, the target buffer and the data
written per entry (`uint16ToByteSlice(v.Encode()[0])` for coil/discrete,
`v.Encode()` for input/holding), abstracted here as `toData`.  Each iteration
computes `addr := v.Address() + addrOffset`, fails when
`prevAddr > addr - size`, otherwise performs
`buf = append(buf[:addr], toData v...)` and sets `prevAddr = addr`. -/
def regLoop (registerType : String) (size : Int) (toData : Entry → List Nat)
    (addrOffset : Int) :
    Int → RegBuf → List Entry → Except SetRegisterError RegBuf
  | _, buf, [] => .ok buf
  | prevAddr, buf, v :: rest =>
    let b := toData v
    let addr := v.regAddr + addrOffset
    if prevAddr > addr - size then
      .error (.wrongIncrement registerType addr)
    else
      regLoop registerType size toData addrOffset addr (appendAt buf addr.toNat b) rest

/-- The per-entry data in the coil and discrete branches:
`uint16ToByteSlice(v.Encode()[0])`.  (The source indexes `[0]`; every encoder
returns at least one word, so `getD 0 0` is that element.) -/
def coilBranchData (v : Entry) : List Nat :=
  uint16ToByteSlice (v.enc.getD 0 0)

/-- The per-entry data in the input and holding branches: `v.Encode()`. -/
def wordBranchData (v : Entry) : List Nat :=
  v.enc

/-- Embedding of `setRegister` (main.go): dispatch on `registerType`, run the
placement loop with `prevAddr` starting at `0` against the matching buffer of
`serv`, and store the resulting buffer back into the server. -/
def setRegister (serv : Server) (registryData : List Entry)
    (registerType : String) (addrOffset : Int) : Except SetRegisterError Server :=
  match registerType with
  | "coil" =>
    (regLoop "coil" coilSize coilBranchData addrOffset 0 serv.Coils registryData).map
      fun b => { serv with Coils := b }
  | "discrete" =>
    (regLoop "discrete" discreteSize coilBranchData addrOffset 0
        serv.DiscreteInputs registryData).map
      fun b => { serv with DiscreteInputs := b }
  | "input" =>
    (regLoop "input" inputSize wordBranchData addrOffset 0
        serv.InputRegisters registryData).map
      fun b => { serv with InputRegisters := b }
  | "holding" =>
    (regLoop "holding" holdingSize wordBranchData addrOffset 0
        serv.HoldingRegisters registryData).map
      fun b => { serv with HoldingRegisters := b }
  | _ => .error .wrongFile

/-- The four register categories handled by `setRegister`. -/
inductive Category where
  | coil
  | discrete
  | input
  | holding
deriving DecidableEq

/-- The `registerType` string of a category. -/
def Category.name : Category → String
  | .coil => "coil"
  | .discrete => "discrete"
  | .input => "input"
  | .holding => "holding"

/-- The size constant used by the category's branch. -/
def Category.size : Category → Int
  | .coil => coilSize
  | .discrete => discreteSize
  | .input => inputSize
  | .holding => holdingSize

/-- The per-entry data written by the category's branch. -/
def Category.toData : Category → Entry → List Nat
  | .coil => coilBranchData
  | .discrete => coilBranchData
  | .input => wordBranchData
  | .holding => wordBranchData

/-- The buffer of `serv` the category's branch reads and writes. -/
def Category.get : Category → Server → RegBuf
  | .coil => Server.Coils
  | .discrete => Server.DiscreteInputs
  | .input => Server.InputRegisters
  | .holding => Server.HoldingRegisters

/-- Storing a buffer back into the category's field of `serv`. -/
def Category.put : Category → Server → RegBuf → Server
  | .coil, serv, b => { serv with Coils := b }
  | .discrete, serv, b => { serv with DiscreteInputs := b }
  | .input, serv, b => { serv with InputRegisters := b }
  | .holding, serv, b => { serv with HoldingRegisters := b }


/-! ### Predicates about placement runs -/

/-- The monotonic-address condition the placement loop enforces, with gap `g`:
starting from tracker value `prev`, each entry's effective address
`v.regAddr + off` is at least the previous one plus `g`, the previous effective
address of the first entry being `prev` itself. -/
def chainFrom (g off : Int) : Int → List Entry → Prop
  | _, [] => True
  | prev, v :: rest => prev + g ≤ v.regAddr + off ∧ chainFrom g off (v.regAddr + off) rest

def decChainFrom (g off : Int) :
    (prev : Int) → (es : List Entry) → Decidable (chainFrom g off prev es)
  | _, [] => .isTrue trivial
  | _, v :: rest =>
    haveI : Decidable (chainFrom g off (v.regAddr + off) rest) :=
      decChainFrom g off (v.regAddr + off) rest
    inferInstanceAs (Decidable (_ ∧ _))

instance (g off prev : Int) (es : List Entry) : Decidable (chainFrom g off prev es) :=
  decChainFrom g off prev es

/-- The pure sequence of buffer writes the loop performs when no check fires:
each entry's data is appended at its effective address. -/
def regFold (toData : Entry → List Nat) (off : Int) : RegBuf → List Entry → RegBuf
  | buf, [] => buf
  | buf, v :: rest =>
    regFold toData off (appendAt buf (v.regAddr + off).toNat (toData v)) rest

/-- Position `p` lies in the span written for some entry of `es`: at or above
the entry's effective address and below it plus the entry's data length. -/
def inSpan (toData : Entry → List Nat) (off : Int) (es : List Entry) (p : Nat) : Prop :=
  ∃ v ∈ es, (v.regAddr + off).toNat ≤ p
    ∧ p < (v.regAddr + off).toNat + (toData v).length

instance (toData : Entry → List Nat) (off : Int) (es : List Entry) (p : Nat) :
    Decidable (inSpan toData off es p) :=
  List.decidableBEx _ es

/-- The buffer `b` holds, at each entry's effective address, exactly that
entry's data. -/
def placedFrom (toData : Entry → List Nat) (off : Int) (b : RegBuf) : List Entry → Prop
  | [] => True
  | v :: rest =>
    (∀ j < (toData v).length,
      b.arr ((v.regAddr + off).toNat + j) = (toData v).getD j 0)
    ∧ placedFrom toData off b rest

/-! ### Encoder factory (`NewEncoder`, main.go) -/

/-- The six `type` tags of the concrete encoder types in the source. -/
inductive EncKind where
  | float32LittleWordBigEndian
  | float32BigWordBigEndian
  | float32LittleWordLittleEndian
  | float32BigWordLittleEndian
  | wordInt16BigEndian
  | wordInt16LittleEndian
deriving DecidableEq

/-- A raw JSON record as handed to `NewEncoder`: the `"type"` string and the
numeric fields `"number"` and `"regAddr"` (Go float64 values, abstracted here
to the integer payload each codec consumes, see the header note). -/
structure RawRecord where
  type : String
  number : Nat
  regAddr : Int
deriving DecidableEq

/-- A concrete encoder value produced by the factory: one of the six kinds
together with the record's numeric fields. -/
structure ValueDescriptor where
  kind : EncKind
  number : Nat
  regAddr : Int
deriving DecidableEq

/-- Embedding of `NewEncoder` (main.go): switch on `m["type"]`, return the
matching concrete encoder; the fall-through of the `switch` returns `nil`,
embedded as `none`. -/
def NewEncoder (m : RawRecord) : Option ValueDescriptor :=
  match m.type with
  | "float32LittleWordBigEndian" =>
    some ⟨.float32LittleWordBigEndian, m.number, m.regAddr⟩
  | "float32BigWordBigEndian" =>
    some ⟨.float32BigWordBigEndian, m.number, m.regAddr⟩
  | "float32LittleWordLittleEndian" =>
    some ⟨.float32LittleWordLittleEndian, m.number, m.regAddr⟩
  | "float32BigWordLittleEndian" =>
    some ⟨.float32BigWordLittleEndian, m.number, m.regAddr⟩
  | "wordInt16BigEndian" =>
    some ⟨.wordInt16BigEndian, m.number, m.regAddr⟩
  | "wordInt16LittleEndian" =>
    some ⟨.wordInt16LittleEndian, m.number, m.regAddr⟩
  | _ => none

/-- The six recognized `type` strings. -/
def recognizedTypes : List String :=
  ["float32LittleWordBigEndian", "float32BigWordBigEndian",
   "float32LittleWordLittleEndian", "float32BigWordLittleEndian",
   "wordInt16BigEndian", "wordInt16LittleEndian"]

/-! ### Arithmetic characterizations of the word helpers -/

theorem and_ff (u : Nat) : u &&& 0xff = u % 256 :=
  Nat.and_pow_two_sub_one_eq_mod u 8

theorem and_ffff (u : Nat) : u &&& 0xffff = u % 65536 :=
  Nat.and_pow_two_sub_one_eq_mod u 16

theorem shiftRight8_eq (u : Nat) : u >>> 8 = u / 256 :=
  Nat.shiftRight_eq_div_pow u 8

theorem shiftRight16_eq (u : Nat) : u >>> 16 = u / 65536 :=
  Nat.shiftRight_eq_div_pow u 16

theorem lor_two_pow_eq_add {y : Nat} (x k : Nat) (hy : y < 2 ^ k) :
    (x <<< k) ||| y = x * 2 ^ k + y := by
  rw [Nat.shiftLeft_eq, Nat.mul_comm x (2 ^ k), ← Nat.mul_add_lt_is_or hy x,
    Nat.mul_comm (2 ^ k) x]

/-- `uint16ToLittleEndian` in plain arithmetic: low byte times 256 plus high byte. -/
theorem uint16ToLittleEndian_eq (u : Nat) :
    uint16ToLittleEndian u = (u % 256) * 256 + (u / 256) % 256 := by
  unfold uint16ToLittleEndian
  rw [and_ff, and_ff, shiftRight8_eq]
  exact lor_two_pow_eq_add (u % 256) 8 (Nat.mod_lt _ (by norm_num))

theorem uint16ToLittleEndian_lt (u : Nat) : uint16ToLittleEndian u < 65536 := by
  rw [uint16ToLittleEndian_eq]
  have h1 : u % 256 < 256 := Nat.mod_lt _ (by norm_num)
  have h2 : u / 256 % 256 < 256 := Nat.mod_lt _ (by norm_num)
  omega

/-- The source's byte swap agrees with the spec's `swap` formula on 16-bit words. -/
theorem uint16ToLittleEndian_eq_swapSpec {w : Nat} (hw : w < 65536) :
    uint16ToLittleEndian w = swapSpec w := by
  have hd : w / 256 < 256 := by omega
  have hr : swapSpec w = (w * 256 + w / 256) % 65536 := by
    unfold swapSpec
    rw [and_ffff, shiftRight8_eq, lor_two_pow_eq_add w 8 (by omega : w / 256 < 2 ^ 8)]
    norm_num
  have hx : (w * 256 + w / 256) % 65536 = w % 256 * 256 + w / 256 := by
    have hsplit : w * 256 + w / 256 = 65536 * (w / 256) + (w % 256 * 256 + w / 256) := by
      omega
    rw [hsplit, Nat.mul_add_mod]
    exact Nat.mod_eq_of_lt (by omega)
  rw [uint16ToLittleEndian_eq, Nat.mod_eq_of_lt hd, hr, hx]

/-- Byte-swapping twice is the identity on 16-bit words. -/
theorem uint16ToLittleEndian_involution {w : Nat} (hw : w < 65536) :
    uint16ToLittleEndian (uint16ToLittleEndian w) = w := by
  rw [uint16ToLittleEndian_eq, uint16ToLittleEndian_eq]
  have h1 : w % 256 < 256 := Nat.mod_lt _ (by norm_num)
  have h2 : w / 256 < 256 := by omega
  rw [Nat.mod_eq_of_lt h2]
  have e1 : (w % 256 * 256 + w / 256) % 256 = w / 256 % 256 := by
    rw [Nat.mul_comm, Nat.mul_add_mod]
  rw [e1, Nat.mod_eq_of_lt h2]
  have e2 : (w % 256 * 256 + w / 256) / 256 = w % 256 := by
    rw [Nat.mul_comm, Nat.mul_add_div (by norm_num), Nat.div_eq_of_lt h2, Nat.add_zero]
  rw [e2]
  omega

/-! ### Claim C2 -/

/-- **C2** (confirmed): for every 32-bit pattern `bits` of `float32(n)`, with
`high16 = bits >> 16`, `low16 = bits & 0xFFFF` and the spec's byte swap
`swap(w) = (w << 8 | w >> 8) & 0xFFFF`:
`float32LittleWordBigEndian.Encode` returns `[low16, high16]`,
`float32BigWordBigEndian.Encode` returns `[high16, low16]`,
`float32LittleWordLittleEndian.Encode` returns `[swap(low16), swap(high16)]`, and
`float32BigWordLittleEndian.Encode` returns `[swap(high16), swap(low16)]`. -/
theorem C2_float_codecs (bits : Nat) (h : bits < 2 ^ 32) :
    float32LittleWordBigEndianEncode bits = [bits &&& 0xffff, bits >>> 16]
    ∧ float32BigWordBigEndianEncode bits = [bits >>> 16, bits &&& 0xffff]
    ∧ float32LittleWordLittleEndianEncode bits
        = [swapSpec (bits &&& 0xffff), swapSpec (bits >>> 16)]
    ∧ float32BigWordLittleEndianEncode bits
        = [swapSpec (bits >>> 16), swapSpec (bits &&& 0xffff)] := by
  have hhiLt : bits >>> 16 < 65536 := by
    rw [shiftRight16_eq]; omega
  have hhi : (bits >>> 16) &&& 0xffff = bits >>> 16 := by
    rw [and_ffff, Nat.mod_eq_of_lt hhiLt]
  have hloLt : bits &&& 0xffff < 65536 := by
    rw [and_ffff]; exact Nat.mod_lt _ (by norm_num)
  refine ⟨?_, ?_, ?_, ?_⟩
  · simp [float32LittleWordBigEndianEncode, hhi]
  · simp [float32BigWordBigEndianEncode, hhi]
  · simp only [float32LittleWordLittleEndianEncode, hhi]
    rw [uint16ToLittleEndian_eq_swapSpec hloLt, uint16ToLittleEndian_eq_swapSpec hhiLt]
  · simp only [float32BigWordLittleEndianEncode, hhi]
    rw [uint16ToLittleEndian_eq_swapSpec hloLt, uint16ToLittleEndian_eq_swapSpec hhiLt]

/-- Witness for C2 at the bit pattern of `float32 3.14159274` (`0x40490FDB`). -/
theorem C2_float_codecs_witness :
    0x40490FDB < 2 ^ 32
    ∧ (float32LittleWordBigEndianEncode 0x40490FDB
          = [0x40490FDB &&& 0xffff, 0x40490FDB >>> 16]
       ∧ float32BigWordBigEndianEncode 0x40490FDB
          = [0x40490FDB >>> 16, 0x40490FDB &&& 0xffff]
       ∧ float32LittleWordLittleEndianEncode 0x40490FDB
          = [swapSpec (0x40490FDB &&& 0xffff), swapSpec (0x40490FDB >>> 16)]
       ∧ float32BigWordLittleEndianEncode 0x40490FDB
          = [swapSpec (0x40490FDB >>> 16), swapSpec (0x40490FDB &&& 0xffff)]) :=
  ⟨by decide, C2_float_codecs 0x40490FDB (by decide)⟩

/-! ### Claim C3 -/

/-- **C3** (confirmed): each of the four float codecs round-trips: applying the
variant's inverse reassembly (undoing the word reorder and intra-word byte swap
and rejoining the two 16-bit words) to its encoding reproduces the original
32-bit pattern, hence the original finite float32 value; and the byte swap is
an involution on 16-bit words. -/
theorem C3_roundtrip (bits w : Nat) (h : bits < 2 ^ 32) (hw : w < 2 ^ 16) :
    reassembleLittleWordBigEndian (float32LittleWordBigEndianEncode bits) = bits
    ∧ reassembleBigWordBigEndian (float32BigWordBigEndianEncode bits) = bits
    ∧ reassembleLittleWordLittleEndian (float32LittleWordLittleEndianEncode bits) = bits
    ∧ reassembleBigWordLittleEndian (float32BigWordLittleEndianEncode bits) = bits
    ∧ uint16ToLittleEndian (uint16ToLittleEndian w) = w := by
  have hhiLt : bits >>> 16 < 65536 := by rw [shiftRight16_eq]; omega
  have hloLt : bits &&& 0xffff < 65536 := by
    rw [and_ffff]; exact Nat.mod_lt _ (by norm_num)
  have hhi : (bits >>> 16) &&& 0xffff = bits >>> 16 := by
    rw [and_ffff, Nat.mod_eq_of_lt hhiLt]
  have hsplit : (bits >>> 16) * 65536 + (bits &&& 0xffff) = bits := by
    rw [shiftRight16_eq, and_ffff, Nat.mul_comm]
    exact Nat.div_add_mod bits 65536
  refine ⟨?_, ?_, ?_, ?_, uint16ToLittleEndian_involution hw⟩
  · simp only [reassembleLittleWordBigEndian, float32LittleWordBigEndianEncode,
      List.getD_cons_zero, List.getD_cons_succ, hhi]
    exact hsplit
  · simp only [reassembleBigWordBigEndian, float32BigWordBigEndianEncode,
      List.getD_cons_zero, List.getD_cons_succ, hhi]
    exact hsplit
  · simp only [reassembleLittleWordLittleEndian, float32LittleWordLittleEndianEncode,
      List.getD_cons_zero, List.getD_cons_succ, hhi]
    rw [uint16ToLittleEndian_involution hhiLt, uint16ToLittleEndian_involution hloLt]
    exact hsplit
  · simp only [reassembleBigWordLittleEndian, float32BigWordLittleEndianEncode,
      List.getD_cons_zero, List.getD_cons_succ, hhi]
    rw [uint16ToLittleEndian_involution hhiLt, uint16ToLittleEndian_involution hloLt]
    exact hsplit

/-- Witness for C3 at bit pattern `0x40490FDB` and word `0xBEEF`. -/
theorem C3_roundtrip_witness :
    (0x40490FDB < 2 ^ 32 ∧ 0xBEEF < 2 ^ 16)
    ∧ (reassembleLittleWordBigEndian (float32LittleWordBigEndianEncode 0x40490FDB)
          = 0x40490FDB
       ∧ reassembleBigWordBigEndian (float32BigWordBigEndianEncode 0x40490FDB)
          = 0x40490FDB
       ∧ reassembleLittleWordLittleEndian (float32LittleWordLittleEndianEncode 0x40490FDB)
          = 0x40490FDB
       ∧ reassembleBigWordLittleEndian (float32BigWordLittleEndianEncode 0x40490FDB)
          = 0x40490FDB
       ∧ uint16ToLittleEndian (uint16ToLittleEndian 0xBEEF) = 0xBEEF) :=
  ⟨⟨by decide, by decide⟩, C3_roundtrip 0x40490FDB 0xBEEF (by decide) (by decide)⟩

/-! ### Claim C7 -/

/-- **C7** (confirmed): `wordInt16BigEndian.Encode` returns the single word
`(uint16(n) << 8) | 0x0001`: the integer value sits in the upper 8 bits and the
lower 8 bits are fixed to 1; with number 1 it produces `[0x0101]`. -/
theorem C7_wordInt16BigEndian (u : Nat) :
    wordInt16BigEndianEncode u = [((u % 256) <<< 8) ||| 1]
    ∧ (((u % 256) <<< 8) ||| 1) >>> 8 = u % 256
    ∧ (((u % 256) <<< 8) ||| 1) &&& 0xff = 1
    ∧ wordInt16BigEndianEncode 1 = [0x0101] := by
  have hadd : ((u % 256) <<< 8) ||| 1 = (u % 256) * 256 + 1 :=
    lor_two_pow_eq_add (u % 256) 8 (by norm_num)
  refine ⟨?_, ?_, ?_, by decide⟩
  · simp only [wordInt16BigEndianEncode]
    have : ((u % 65536) <<< 8) % 65536 = (u % 256) <<< 8 := by
      rw [Nat.shiftLeft_eq, Nat.shiftLeft_eq]
      show u % 65536 * 256 % 65536 = u % 256 * 256
      have h1 : (65536 : Nat) = 256 * 256 := by norm_num
      rw [h1, Nat.mul_mod_mul_right, Nat.mod_mod_of_dvd u (by norm_num)]
    rw [this]
  · rw [hadd, shiftRight8_eq]
    omega
  · rw [hadd, and_ff]
    omega


theorem setRegister_eq_regLoop (c : Category) (serv : Server) (es : List Entry)
    (off : Int) :
    setRegister serv es c.name off
      = (regLoop c.name c.size c.toData off 0 (c.get serv) es).map (c.put serv) := by
  cases c <;> rfl

theorem Category.get_put (c : Category) (serv : Server) (b : RegBuf) :
    c.get (c.put serv b) = b := by
  cases c <;> rfl

theorem Category.size_pos (c : Category) : 1 ≤ c.size := by
  cases c <;> decide

theorem Category.size_le_two (c : Category) : c.size ≤ 2 := by
  cases c <;> decide

/-! ### Placement loop lemmas -/

theorem except_map_ok {α β γ : Type} {f : α → β} {x : Except γ α} {y : β}
    (h : x.map f = .ok y) : ∃ b, x = .ok b ∧ y = f b := by
  cases x with
  | error e => simp [Except.map] at h
  | ok b =>
    refine ⟨b, rfl, ?_⟩
    simpa [Except.map] using h.symm

theorem chainFrom_lower {g off : Int} (hg : 0 ≤ g) :
    ∀ {es : List Entry} {prev : Int}, chainFrom g off prev es →
      ∀ v ∈ es, prev + g ≤ v.regAddr + off := by
  intro es
  induction es with
  | nil => intro prev _ v hv; cases hv
  | cons w rest ih =>
    intro prev h v hv
    obtain ⟨h1, h2⟩ := h
    rcases List.mem_cons.mp hv with rfl | hv
    · exact h1
    · have := ih h2 v hv
      omega

theorem chainFrom_mono {g g' off : Int} (hg : g' ≤ g) :
    ∀ {es : List Entry} {prev : Int}, chainFrom g off prev es →
      chainFrom g' off prev es := by
  intro es
  induction es with
  | nil => intro prev _; trivial
  | cons w rest ih =>
    intro prev h
    obtain ⟨h1, h2⟩ := h
    exact ⟨by omega, ih h2⟩

theorem regLoop_cons_ok {rt : String} {size : Int} {toData : Entry → List Nat}
    {off prev : Int} {buf : RegBuf} {v : Entry} {rest : List Entry}
    (h : ¬ prev > v.regAddr + off - size) :
    regLoop rt size toData off prev buf (v :: rest)
      = regLoop rt size toData off (v.regAddr + off)
          (appendAt buf (v.regAddr + off).toNat (toData v)) rest := by
  simp [regLoop, h]

theorem regLoop_cons_error {rt : String} {size : Int} {toData : Entry → List Nat}
    {off prev : Int} {buf : RegBuf} {v : Entry} {rest : List Entry}
    (h : prev > v.regAddr + off - size) :
    regLoop rt size toData off prev buf (v :: rest)
      = .error (.wrongIncrement rt (v.regAddr + off)) := by
  simp [regLoop, h]

theorem regLoop_ok_of_chain (rt : String) (size : Int) (toData : Entry → List Nat)
    (off : Int) :
    ∀ (es : List Entry) (prev : Int) (buf : RegBuf), chainFrom size off prev es →
      regLoop rt size toData off prev buf es = .ok (regFold toData off buf es) := by
  intro es
  induction es with
  | nil => intro prev buf _; rfl
  | cons v rest ih =>
    intro prev buf h
    obtain ⟨h1, h2⟩ := h
    rw [regLoop_cons_ok (by omega)]
    exact ih _ _ h2

theorem regLoop_ok_elim (rt : String) (size : Int) (toData : Entry → List Nat)
    (off : Int) :
    ∀ (es : List Entry) (prev : Int) (buf b : RegBuf),
      regLoop rt size toData off prev buf es = .ok b →
      chainFrom size off prev es ∧ b = regFold toData off buf es := by
  intro es
  induction es with
  | nil =>
    intro prev buf b h
    have hb : buf = b := by simpa [regLoop] using h
    exact ⟨trivial, hb.symm⟩
  | cons v rest ih =>
    intro prev buf b h
    by_cases hc : prev > v.regAddr + off - size
    · rw [regLoop_cons_error hc] at h
      exact absurd h (by simp)
    · rw [regLoop_cons_ok hc] at h
      obtain ⟨hch, hb⟩ := ih _ _ _ h
      exact ⟨⟨by omega, hch⟩, hb⟩

theorem regLoop_shape (rt : String) (size : Int) (toData : Entry → List Nat)
    (off : Int) :
    ∀ (es : List Entry) (prev : Int) (buf : RegBuf),
      (∃ b, regLoop rt size toData off prev buf es = .ok b)
      ∨ ∃ a, regLoop rt size toData off prev buf es
          = .error (.wrongIncrement rt a) := by
  intro es
  induction es with
  | nil => intro prev buf; exact .inl ⟨buf, rfl⟩
  | cons v rest ih =>
    intro prev buf
    by_cases hc : prev > v.regAddr + off - size
    · exact .inr ⟨_, regLoop_cons_error hc⟩
    · rw [regLoop_cons_ok hc]
      exact ih _ _

theorem appendAt_arr_in {buf : RegBuf} {addr : Nat} {data : List Nat} {p : Nat}
    (h1 : addr ≤ p) (h2 : p - addr < data.length) :
    (appendAt buf addr data).arr p = data.getD (p - addr) 0 := by
  simp [appendAt, h1, h2]

theorem appendAt_arr_out {buf : RegBuf} {addr : Nat} {data : List Nat} {p : Nat}
    (h : ¬ (addr ≤ p ∧ p - addr < data.length)) :
    (appendAt buf addr data).arr p = buf.arr p := by
  simp only [appendAt]
  rw [if_neg h]

theorem regFold_arr_out (toData : Entry → List Nat) (off : Int) :
    ∀ (es : List Entry) (buf : RegBuf) (p : Nat), ¬ inSpan toData off es p →
      (regFold toData off buf es).arr p = buf.arr p := by
  intro es
  induction es with
  | nil => intro buf p _; rfl
  | cons v rest ih =>
    intro buf p hp
    have hrest : ¬ inSpan toData off rest p := by
      rintro ⟨w, hw, hs⟩
      exact hp ⟨w, List.mem_cons_of_mem _ hw, hs⟩
    have hhead : ¬ ((v.regAddr + off).toNat ≤ p
        ∧ p - (v.regAddr + off).toNat < (toData v).length) := by
      rintro ⟨ha, hb⟩
      exact hp ⟨v, List.mem_cons_self _ _, ha, by omega⟩
    have hred : regFold toData off buf (v :: rest)
        = regFold toData off
            (appendAt buf (v.regAddr + off).toNat (toData v)) rest := rfl
    rw [hred, ih _ _ hrest, appendAt_arr_out hhead]

theorem regFold_len_last (toData : Entry → List Nat) (off : Int) :
    ∀ (es : List Entry) (buf : RegBuf) (v : Entry), es.getLast? = some v →
      (regFold toData off buf es).len
        = (v.regAddr + off).toNat + (toData v).length := by
  intro es
  induction es with
  | nil => intro buf v h; simp at h
  | cons w rest ih =>
    intro buf v h
    cases rest with
    | nil =>
      have hv : w = v := by simpa using h
      subst hv
      rfl
    | cons x rest2 =>
      have h2 : (x :: rest2).getLast? = some v := by
        simpa [List.getLast?_cons_cons] using h
      exact ih _ _ h2

theorem regFold_placed (toData : Entry → List Nat) (off : Int) :
    ∀ (es : List Entry) (buf : RegBuf) (prev : Int), 0 ≤ prev →
      (∀ v ∈ es, (toData v).length ≤ 2) →
      chainFrom 2 off prev es →
      placedFrom toData off (regFold toData off buf es) es := by
  intro es
  induction es with
  | nil => intro buf prev _ _ _; trivial
  | cons v rest ih =>
    intro buf prev hprev hlen hch
    obtain ⟨h1, h2⟩ := hch
    have ha : (0 : Int) ≤ v.regAddr + off := by omega
    constructor
    · intro j hj
      have hj2 : j < 2 := lt_of_lt_of_le hj (hlen v (List.mem_cons_self _ _))
      have hnotrest : ¬ inSpan toData off rest ((v.regAddr + off).toNat + j) := by
        rintro ⟨w, hw, hs1, hs2⟩
        have hw2 : (v.regAddr + off) + 2 ≤ w.regAddr + off :=
          chainFrom_lower (by norm_num) h2 w hw
        omega
      have hred : regFold toData off buf (v :: rest)
          = regFold toData off
              (appendAt buf (v.regAddr + off).toNat (toData v)) rest := rfl
      rw [hred, regFold_arr_out toData off rest _ _ hnotrest,
        appendAt_arr_in (by omega) (by omega)]
      simp
    · exact ih _ _ ha (fun w hw => hlen w (List.mem_cons_of_mem _ hw)) h2

theorem regFold_shift (toData : Entry → List Nat) :
    ∀ (es : List Entry) (buf0 buf1 : RegBuf),
      (∀ v ∈ es, (0 : Int) ≤ v.regAddr + (-1)) →
      (∀ p : Nat, buf0.arr (p + 1) = buf1.arr p) →
      ∀ p : Nat, (regFold toData 0 buf0 es).arr (p + 1)
        = (regFold toData (-1) buf1 es).arr p := by
  intro es
  induction es with
  | nil => intro buf0 buf1 _ hb p; exact hb p
  | cons v rest ih =>
    intro buf0 buf1 hpos hb p
    have hv := hpos v (List.mem_cons_self _ _)
    have htoNat : (v.regAddr + 0).toNat = (v.regAddr + (-1)).toNat + 1 := by omega
    refine ih (appendAt buf0 ((v.regAddr + 0).toNat) (toData v))
      (appendAt buf1 ((v.regAddr + (-1)).toNat) (toData v))
      (fun w hw => hpos w (List.mem_cons_of_mem _ hw)) ?_ p
    intro q
    by_cases hc : (v.regAddr + (-1)).toNat ≤ q
        ∧ q - (v.regAddr + (-1)).toNat < (toData v).length
    · rw [appendAt_arr_in (by omega) (by omega), appendAt_arr_in hc.1 hc.2]
      congr 1
      omega
    · have hc0 : ¬ ((v.regAddr + 0).toNat ≤ q + 1
          ∧ (q + 1) - (v.regAddr + 0).toNat < (toData v).length) := by
        intro h
        exact hc ⟨by omega, by omega⟩
      rw [appendAt_arr_out hc0, appendAt_arr_out hc]
      exact hb q

theorem Category.get_newServer (c : Category) : c.get newServer = zeroBuf := by
  cases c <;> rfl

/-! ### Claim C1 -/

/-- **C1 counterexample**: two coil entries whose effective addresses 1 and 2
satisfy the claim's hypothesis (strictly increasing, each at least the previous
plus the coil unit width 1).  `setRegister` succeeds, but the buffer at
position 2 holds the second entry's high byte `0`, not the first entry's low
byte `1`, so the first entry's byte pair is not intact in the buffer. -/
theorem C1_counterexample :
    (setRegister newServer
        [⟨wordInt16BigEndianEncode 1, 1⟩, ⟨wordInt16BigEndianEncode 0, 2⟩]
        "coil" 0).map (fun s => (s.Coils.arr 1, s.Coils.arr 2))
      = .ok (1, 0)
    ∧ uint16ToByteSlice ((wordInt16BigEndianEncode 1).getD 0 0) = [1, 1] := by
  exact ⟨rfl, rfl⟩

/-- **C1 (amended)**: for every category and entry list whose effective
addresses rise by at least the category's unit width from the tracker's initial
value 0, `setRegister` succeeds; and when they rise by at least 2 — the number
of units each coil/discrete entry writes (its two bytes), and an upper bound on
the words an input/holding entry writes — the category's buffer afterwards
holds, starting at each entry's effective address, exactly that entry's encoded
words (input/holding) or the high-then-low byte pair of its single word
(coil/discrete).  The original claim's spacing (unit width 1) is not enough for
coil/discrete content: see `C1_counterexample`. -/
theorem C1_placement (c : Category) (serv : Server) (es : List Entry) (off : Int)
    (hlen : ∀ v ∈ es, (c.toData v).length ≤ 2) :
    (chainFrom c.size off 0 es → ∃ S, setRegister serv es c.name off = .ok S)
    ∧ (chainFrom 2 off 0 es →
        ∃ S, setRegister serv es c.name off = .ok S
          ∧ placedFrom c.toData off (c.get S) es) := by
  constructor
  · intro hch
    refine ⟨c.put serv (regFold c.toData off (c.get serv) es), ?_⟩
    rw [setRegister_eq_regLoop, regLoop_ok_of_chain _ _ _ _ _ _ _ hch]
    rfl
  · intro hch
    have hch1 : chainFrom c.size off 0 es := chainFrom_mono c.size_le_two hch
    refine ⟨c.put serv (regFold c.toData off (c.get serv) es), ?_, ?_⟩
    · rw [setRegister_eq_regLoop, regLoop_ok_of_chain _ _ _ _ _ _ _ hch1]
      rfl
    · rw [Category.get_put]
      exact regFold_placed c.toData off es (c.get serv) 0 le_rfl hlen hch

/-- Witness for C1 at two holding-register entries at effective addresses 2
and 4. -/
theorem C1_placement_witness :
    (∀ v ∈ ([⟨[5, 6], 2⟩, ⟨[7], 4⟩] : List Entry),
        (Category.holding.toData v).length ≤ 2)
    ∧ chainFrom 2 0 0 [⟨[5, 6], 2⟩, ⟨[7], 4⟩]
    ∧ ∃ S, setRegister newServer [⟨[5, 6], 2⟩, ⟨[7], 4⟩] "holding" 0 = .ok S
        ∧ placedFrom Category.holding.toData 0 (Category.holding.get S)
            [⟨[5, 6], 2⟩, ⟨[7], 4⟩] := by
  refine ⟨by decide, by decide, ?_⟩
  exact (C1_placement .holding newServer [⟨[5, 6], 2⟩, ⟨[7], 4⟩] 0 (by decide)).2
    (by decide)

/-! ### Claim C4 -/

/-- **C4** (confirmed): whenever the placement pass reaches an entry whose
effective address satisfies `lastAddr > effectiveAddr - categoryUnitWidth`, the
loop fails with the wrong-increment (overlap/non-monotonic) error naming that
entry's effective address; and two entries at addresses `A` and
`A + width - 1` always make `setRegister` fail with that error. -/
theorem C4_overlap (c : Category) (off prev : Int) (buf : RegBuf) (v : Entry)
    (rest : List Entry) (serv : Server) (d1 d2 : List Nat) (a : Int) :
    (prev > v.regAddr + off - c.size →
      regLoop c.name c.size c.toData off prev buf (v :: rest)
        = .error (.wrongIncrement c.name (v.regAddr + off)))
    ∧ ∃ addr, setRegister serv [⟨d1, a⟩, ⟨d2, a + c.size - 1⟩] c.name off
        = .error (.wrongIncrement c.name addr) := by
  constructor
  · intro h
    exact regLoop_cons_error h
  · rw [setRegister_eq_regLoop]
    by_cases hc : (0 : Int) > a + off - c.size
    · refine ⟨a + off, ?_⟩
      rw [regLoop_cons_error hc]
      rfl
    · refine ⟨a + c.size - 1 + off, ?_⟩
      rw [regLoop_cons_ok hc, regLoop_cons_error
        (by show a + off > (a + c.size - 1) + off - c.size; omega)]
      rfl

/-- Witness for C4: a mid-pass tracker value 5 rejects effective address 4 in
the coil loop, and two coil entries at addresses 7 and 7 (= 7 + 1 - 1) make
`setRegister` fail. -/
theorem C4_overlap_witness :
    ((5 : Int) > 4 + 0 - Category.coil.size
      ∧ regLoop "coil" Category.coil.size Category.coil.toData 0 5 zeroBuf
          [⟨[3], 4⟩]
        = .error (.wrongIncrement "coil" (4 + 0)))
    ∧ ∃ addr, setRegister newServer [⟨[3], 7⟩, ⟨[4], 7 + Category.coil.size - 1⟩]
          "coil" 0
        = .error (.wrongIncrement "coil" addr) := by
  refine ⟨⟨by decide, ?_⟩, ?_⟩
  · exact (C4_overlap .coil 0 5 zeroBuf ⟨[3], 4⟩ [] newServer [3] [4] 7).1
      (by decide)
  · exact (C4_overlap .coil 0 5 zeroBuf ⟨[3], 4⟩ [] newServer [3] [4] 7).2

/-! ### Claim C5 -/

/-- **C5** (confirmed): for every category and entry list that builds
successfully under both offsets, the build with offset 0 places every value
exactly one addressable unit higher than the build with offset -1: position
`p + 1` of the offset-0 buffer equals position `p` of the offset-(-1) buffer,
for every `p`. -/
theorem C5_offset_shift (c : Category) (es : List Entry) (S0 S1 : Server)
    (h0 : setRegister newServer es c.name 0 = .ok S0)
    (h1 : setRegister newServer es c.name (-1) = .ok S1) :
    ∀ p : Nat, (c.get S0).arr (p + 1) = (c.get S1).arr p := by
  rw [setRegister_eq_regLoop] at h0 h1
  obtain ⟨b0, hb0, hS0⟩ := except_map_ok h0
  obtain ⟨b1, hb1, hS1⟩ := except_map_ok h1
  obtain ⟨hch0, hfold0⟩ := regLoop_ok_elim _ _ _ _ _ _ _ _ hb0
  obtain ⟨hch1, hfold1⟩ := regLoop_ok_elim _ _ _ _ _ _ _ _ hb1
  have hpos : ∀ v ∈ es, (0 : Int) ≤ v.regAddr + (-1) := by
    intro v hv
    have := chainFrom_lower (by have := c.size_pos; omega) hch1 v hv
    have := c.size_pos
    omega
  intro p
  rw [hS0, hS1, Category.get_put, Category.get_put, hfold0, hfold1,
    Category.get_newServer]
  exact regFold_shift c.toData es zeroBuf zeroBuf hpos (fun _ => rfl) p

/-- Witness for C5: one holding-register entry at config address 3, built under
both offsets; the two words land at 3,4 (offset 0) versus 2,3 (offset -1). -/
theorem C5_offset_shift_witness :
    ∃ S0 S1, setRegister newServer [⟨[5, 6], 3⟩] "holding" 0 = .ok S0
      ∧ setRegister newServer [⟨[5, 6], 3⟩] "holding" (-1) = .ok S1
      ∧ S0.HoldingRegisters.arr 3 = S1.HoldingRegisters.arr 2
      ∧ S0.HoldingRegisters.arr 4 = S1.HoldingRegisters.arr 3 := by
  refine ⟨_, _, rfl, rfl, ?_, ?_⟩
  · exact C5_offset_shift .holding [⟨[5, 6], 3⟩] _ _ rfl rfl 2
  · exact C5_offset_shift .holding [⟨[5, 6], 3⟩] _ _ rfl rfl 3

/-! ### Claim C6 -/

/-- **C6 counterexample**: a coil entry with effective address -1 makes
`setRegister` fail with the wrong-increment (overlap/non-monotonic) error — the
only error the placement code can produce besides the unknown-register-type
one; there is no separate address-out-of-range error in the code. -/
theorem C6_counterexample :
    setRegister newServer [⟨[3], -1⟩] "coil" 0
      = .error (.wrongIncrement "coil" (-1)) := rfl

/-- **C6 (amended)**: an entry with negative effective address always makes the
category's build fail, but with the wrong-increment (overlap/non-monotonic)
error — since the tracker starts at 0 and widths are positive, a negative
address can never pass the increment check — not with a dedicated
address-out-of-range error, which does not exist in the code. -/
theorem C6_negative_addr (c : Category) (serv : Server) (es : List Entry)
    (off : Int) (v : Entry) (hv : v ∈ es) (hneg : v.regAddr + off < 0) :
    ∃ addr, setRegister serv es c.name off
      = .error (.wrongIncrement c.name addr) := by
  rw [setRegister_eq_regLoop]
  rcases regLoop_shape c.name c.size c.toData off es 0 (c.get serv) with
    ⟨b, hb⟩ | ⟨addr, ha⟩
  · exfalso
    obtain ⟨hch, _⟩ := regLoop_ok_elim _ _ _ _ _ _ _ _ hb
    have := chainFrom_lower (by have := c.size_pos; omega) hch v hv
    have := c.size_pos
    omega
  · exact ⟨addr, by rw [ha]; rfl⟩

/-- Witness for C6 (amended) at a single coil entry with address -1, offset 0. -/
theorem C6_negative_addr_witness :
    ((⟨[3], -1⟩ : Entry) ∈ ([⟨[3], -1⟩] : List Entry) ∧ (-1 : Int) + 0 < 0)
    ∧ ∃ addr, setRegister newServer [⟨[3], -1⟩] "coil" 0
        = .error (.wrongIncrement "coil" addr) := by
  refine ⟨⟨List.mem_singleton.mpr rfl, by decide⟩, ?_⟩
  exact C6_negative_addr .coil newServer [⟨[3], -1⟩] 0 ⟨[3], -1⟩
    (List.mem_singleton.mpr rfl) (by decide)

/-! ### Claim C8 -/

/-- **C8 counterexample**: for a record whose `type` is not one of the six
recognized strings, `NewEncoder` returns `nil` (`none`) — it does not fail with
an unknown-encoding-kind error; the factory has no error result at all. -/
theorem C8_counterexample : NewEncoder ⟨"bogus", 0, 0⟩ = none := rfl

/-- **C8 (amended)**: for each of the six recognized `type` strings the factory
returns a descriptor tagged with the matching kind; for any other `type` string
it returns `nil` (`none`) rather than an unknown-encoding-kind error (the
caller later crashes when it uses the nil interface value). -/
theorem C8_factory (m : RawRecord) :
    (m.type = "float32LittleWordBigEndian" →
      NewEncoder m = some ⟨.float32LittleWordBigEndian, m.number, m.regAddr⟩)
    ∧ (m.type = "float32BigWordBigEndian" →
      NewEncoder m = some ⟨.float32BigWordBigEndian, m.number, m.regAddr⟩)
    ∧ (m.type = "float32LittleWordLittleEndian" →
      NewEncoder m = some ⟨.float32LittleWordLittleEndian, m.number, m.regAddr⟩)
    ∧ (m.type = "float32BigWordLittleEndian" →
      NewEncoder m = some ⟨.float32BigWordLittleEndian, m.number, m.regAddr⟩)
    ∧ (m.type = "wordInt16BigEndian" →
      NewEncoder m = some ⟨.wordInt16BigEndian, m.number, m.regAddr⟩)
    ∧ (m.type = "wordInt16LittleEndian" →
      NewEncoder m = some ⟨.wordInt16LittleEndian, m.number, m.regAddr⟩)
    ∧ (m.type ∉ recognizedTypes → NewEncoder m = none) := by
  obtain ⟨t, n, a⟩ := m
  refine ⟨?_, ?_, ?_, ?_, ?_, ?_, ?_⟩
  all_goals intro h
  case _ => subst h; rfl
  case _ => subst h; rfl
  case _ => subst h; rfl
  case _ => subst h; rfl
  case _ => subst h; rfl
  case _ => subst h; rfl
  case _ =>
    simp only [recognizedTypes, List.mem_cons, List.not_mem_nil, or_false,
      not_or] at h
    obtain ⟨h1, h2, h3, h4, h5, h6⟩ := h
    simp only [NewEncoder]

/-- Witness for C8 at a recognized record and an unrecognized one. -/
theorem C8_factory_witness :
    NewEncoder ⟨"wordInt16BigEndian", 3, 7⟩
        = some ⟨.wordInt16BigEndian, 3, 7⟩
    ∧ ("bogus" ∉ recognizedTypes
        ∧ NewEncoder ⟨"bogus", 1, 2⟩ = none) :=
  ⟨(C8_factory ⟨"wordInt16BigEndian", 3, 7⟩).2.2.2.2.1 rfl,
    by decide, (C8_factory ⟨"bogus", 1, 2⟩).2.2.2.2.2.2 (by decide)⟩

/-! ### Claim C9 -/

/-- **C9 counterexample**: one holding-register entry at effective address 2.
Position 10 of the holding buffer initially reads as `0`, but after the
successful build the buffer has been truncated to length 4 (the end of the last
entry's data) by the `append(buf[:addr], ...)` write, so position 10 — inside
the protocol address space and past the last entry — no longer holds its
initial zero value: reading it is out of bounds. -/
theorem C9_counterexample :
    newServer.HoldingRegisters.read 10 = some 0
    ∧ (setRegister newServer [⟨[5, 6], 2⟩] "holding" 0).map
        (fun s => (s.HoldingRegisters.len, s.HoldingRegisters.read 10))
      = .ok (4, none) := ⟨rfl, rfl⟩

/-- **C9 (amended)**: after a successful placement pass from a fresh server,
every backing-array position not covered by some entry's written span still
holds its initial zero value — placement writes only each entry's span — but
the buffer itself is truncated: its length becomes the last entry's effective
address plus that entry's data length, so positions after the last entry are no
longer part of the buffer (the claim's "still holds zero across the full
protocol address space" fails there, see `C9_counterexample`). -/
theorem C9_untouched (c : Category) (es : List Entry) (off : Int) (S : Server)
    (h : setRegister newServer es c.name off = .ok S) :
    (∀ p : Nat, ¬ inSpan c.toData off es p → (c.get S).arr p = 0)
    ∧ (∀ v, es.getLast? = some v →
        (c.get S).len = (v.regAddr + off).toNat + (c.toData v).length) := by
  rw [setRegister_eq_regLoop] at h
  obtain ⟨b, hb, hS⟩ := except_map_ok h
  obtain ⟨hch, hfold⟩ := regLoop_ok_elim _ _ _ _ _ _ _ _ hb
  rw [hS, Category.get_put, hfold, Category.get_newServer]
  constructor
  · intro p hp
    rw [regFold_arr_out c.toData off es zeroBuf p hp]
    rfl
  · intro v hv
    exact regFold_len_last c.toData off es zeroBuf v hv

/-- Witness for C9 (amended) at one holding-register entry at effective
address 2: the untouched position 10 holds 0 and the final length is 4. -/
theorem C9_untouched_witness :
    ∃ S, setRegister newServer [⟨[5, 6], 2⟩] "holding" 0 = .ok S
      ∧ ¬ inSpan Category.holding.toData 0 [⟨[5, 6], 2⟩] 10
      ∧ S.HoldingRegisters.arr 10 = 0
      ∧ S.HoldingRegisters.len = 4 := by
  refine ⟨_, rfl, by decide, ?_, ?_⟩
  · exact (C9_untouched .holding [⟨[5, 6], 2⟩] 0 _ rfl).1 10 (by decide)
  · exact (C9_untouched .holding [⟨[5, 6], 2⟩] 0 _ rfl).2 ⟨[5, 6], 2⟩ rfl

/-! ### Claim C10 -/

/-- **C10** (confirmed): because the previous-address tracker starts at 0, a
placement pass whose first entry has effective address below the category's
unit width fails immediately with the wrong-increment error naming that
address, even though no previous entry exists; consequently every entry of a
successful pass has effective address at least the category's unit width. -/
theorem C10_first_entry (c : Category) (serv : Server) (off : Int)
    (v : Entry) (rest : List Entry) (es : List Entry) (S : Server) :
    (v.regAddr + off < c.size →
      setRegister serv (v :: rest) c.name off
        = .error (.wrongIncrement c.name (v.regAddr + off)))
    ∧ (setRegister serv es c.name off = .ok S →
        ∀ w ∈ es, c.size ≤ w.regAddr + off) := by
  constructor
  · intro h
    rw [setRegister_eq_regLoop, regLoop_cons_error (by omega)]
    rfl
  · intro h w hw
    rw [setRegister_eq_regLoop] at h
    obtain ⟨b, hb, _⟩ := except_map_ok h
    obtain ⟨hch, _⟩ := regLoop_ok_elim _ _ _ _ _ _ _ _ hb
    have := chainFrom_lower (by have := c.size_pos; omega) hch w hw
    omega

/-- Witness for C10: a holding entry at effective address 1 (< width 2) fails
at once; in a successful single-entry pass at address 3 every entry's effective
address is at least 2. -/
theorem C10_first_entry_witness :
    ((1 : Int) + 0 < Category.holding.size
      ∧ setRegister newServer [⟨[5, 6], 1⟩] "holding" 0
          = .error (.wrongIncrement "holding" (1 + 0)))
    ∧ ∃ S, setRegister newServer [⟨[5, 6], 3⟩] "holding" 0 = .ok S
        ∧ ∀ w ∈ ([⟨[5, 6], 3⟩] : List Entry),
            Category.holding.size ≤ w.regAddr + 0 := by
  refine ⟨⟨by decide, ?_⟩, ?_⟩
  · exact (C10_first_entry .holding newServer 0 ⟨[5, 6], 1⟩ [] [] newServer).1
      (by decide)
  · refine ⟨_, rfl, ?_⟩
    exact (C10_first_entry .holding newServer 0 ⟨[5, 6], 1⟩ [] [⟨[5, 6], 3⟩] _).2
      rfl
